import Mathlib

/-!
Shallow embedding of the Redis-like LRU cache server from
`src/src/post/build-your-own-redis-like-cache-in-go.md`
(Go packages `store` (cache.go, persistence.go) and `main` (main.go)).

Modelling conventions:
* Wall-clock time is a `Nat` (`time.Time`); the Go zero `time.Time` is `0`,
  so `expiresAt = 0` means "never expires", matching `expiresAt.IsZero()`.
  `time.Duration` is a `Nat` number of seconds; `time.Hour` is `hour = 3600`.
* The Go `map[string]*Item` is an association list with unique keys
  (`List (String × Item)`); `delete` and in-place update through the `*Item`
  pointer are the corresponding association-list operations.
* The `container/list` LRU list is a `List String` of the keys held by the
  list elements, front first.  An `*list.Element` is identified by its key,
  which is unique in the list for every reachable cache (the `wf` predicate
  below); `MoveToFront`, `PushFront`, `Back` and `Remove` act on that list.
  Crucially, Go `(*List).Remove(e)` sets `e.prev`, `e.next` and `e.list` to
  nil, so a subsequent `e.Prev()` returns nil; the sweep loop in
  `cleanExpiredItems` is modelled with exactly that behaviour.
* File-system and network effects live in a `World` record: the AOF file is
  the list of appended records, `appendFails` models the underlying
  `os.File.WriteString` failing, and `serverLog` collects `log.Println`
  output.  Go functions returning nothing are functions returning the new
  state; a nil-pointer dereference (possible in `cleanExpiredItems` when a
  list key is missing from the map) is modelled by an `Option` result,
  `none` standing for the panic.
-/

/-- One cache slot, Go `store.Item`.  The Go field `elem *list.Element` is
represented by the entry's (unique) key occurring in `Cache.lru`. -/
structure Item where
  value : String
  expiresAt : Nat
  deriving DecidableEq, Repr

/-- External effects: the AOF file contents (one appended record per list
element, each written by Go as the record followed by a newline), whether the
underlying file write fails, and the `log.Println` output. -/
structure World where
  aof : List String
  appendFails : Bool
  serverLog : List String
  deriving DecidableEq, Repr

/-- Go `store.Cache`: item map, LRU key list (front = most recently used),
capacity, and whether a persistence mechanism is attached
(`persist *Persistence` being non-nil). -/
structure Cache where
  items : List (String × Item)
  lru : List String
  maxSize : Nat
  persist : Bool
  deriving DecidableEq, Repr

/-- Keys currently bound in the item map. -/
def keys (m : List (String × Item)) : List String := m.map Prod.fst

/-- Go map read `c.items[key]` (with the `, exists` form where used). -/
def mapGet : List (String × Item) → String → Option Item
  | [], _ => none
  | p :: r, k => if p.1 = k then some p.2 else mapGet r k

/-- Go `delete(c.items, k)`. -/
def mapDelete (k : String) : List (String × Item) → List (String × Item)
  | [] => []
  | p :: r => if p.1 = k then mapDelete k r else p :: mapDelete k r

/-- Go in-place update `item.value = v; item.expiresAt = e` through the
pointer stored in the map (the binding's key is unchanged). -/
def mapUpdate (k v : String) (e : Nat) : List (String × Item) → List (String × Item)
  | [] => []
  | p :: r => if p.1 = k then (p.1, ⟨v, e⟩) :: mapUpdate k v e r else p :: mapUpdate k v e r

/-- Go `c.lru.Remove(elem)` for the element holding key `k` (unique in any
reachable cache): drop the first occurrence of `k`. -/
def removeFirst (k : String) : List String → List String
  | [] => []
  | x :: r => if x = k then r else x :: removeFirst k r

/-- Go `c.lru.MoveToFront(item.elem)`. -/
def moveToFront (k : String) (l : List String) : List String := k :: removeFirst k l

/-- Go `c.lru.Back()`: the last element of the list, if any. -/
def lastKey : List String → Option String
  | [] => none
  | [x] => some x
  | _ :: y :: r => lastKey (y :: r)

/-- Shared removal of one entry from both structures:
`c.lru.Remove(elem); delete(c.items, k)` (in either order; they touch
different components). -/
def removeEntry (k : String) (c : Cache) : Cache :=
  { c with lru := removeFirst k c.lru, items := mapDelete k c.items }

/-- The eviction step appearing verbatim at the end of both `Cache.Set` and
`Cache.cleanExpiredItems`:
`if c.lru.Len() > c.maxSize { oldest := c.lru.Back(); if oldest != nil { delete(...); c.lru.Remove(oldest) } }`. -/
def evictIfOver (c : Cache) : Cache :=
  if c.maxSize < c.lru.length then
    match lastKey c.lru with
    | some oldest => removeEntry oldest c
    | none => c
  else c

/-- Go `store.NewCache(maxSize, persist)`. -/
def NewCache (maxSize : Nat) (persist : Bool) : Cache :=
  { items := [], lru := [], maxSize := maxSize, persist := persist }

/-- `time.Hour` as a number of seconds. -/
def hour : Nat := 3600

/-- Go `(*Persistence).Append(cmd)`: writes `cmd + "\n"` to the AOF file and
returns the `WriteString` error, if any. -/
def Persistence.Append (cmd : String) (w : World) : Except String Unit × World :=
  if w.appendFails then (Except.error "write error", w)
  else (Except.ok (), { w with aof := w.aof ++ [cmd] })

/-- Go `(*Cache).Set(key, value, ttl, replaying)`.  Set returns nothing in
Go; the model returns the new cache and world.  A failed AOF append is
logged via `log.Println` (a line in `serverLog`) and otherwise ignored. -/
def Cache.Set (now : Nat) (key value : String) (ttl : Nat) (replaying : Bool)
    (c : Cache) (w : World) : Cache × World :=
  let expiresAt := if ttl ≠ 0 then now + ttl else 0
  let c1 :=
    match mapGet c.items key with
    | some _ =>
      { c with items := mapUpdate key value expiresAt c.items,
               lru := moveToFront key c.lru }
    | none =>
      { c with lru := key :: c.lru,
               items := (key, ⟨value, expiresAt⟩) :: c.items }
  let c2 := evictIfOver c1
  let w2 :=
    if c.persist ∧ ¬ replaying then
      let cmd := "SET " ++ key ++ " " ++ value
      match Persistence.Append cmd w with
      | (Except.ok _, w1) => w1
      | (Except.error e, w1) =>
        { w1 with serverLog := w1.serverLog ++ ["Failed to append to AOF file: " ++ e] }
    else w
  (c2, w2)

/-- Go `(*Cache).Get(key)`: returns `(value, found)` and the new cache
state (lazy expiration, move-to-front). -/
def Cache.Get (now : Nat) (key : String) (c : Cache) : (String × Bool) × Cache :=
  match mapGet c.items key with
  | none => (("", false), c)
  | some item =>
    if item.expiresAt ≠ 0 ∧ item.expiresAt < now then
      (("", false), removeEntry key c)
    else
      ((item.value, true), { c with lru := moveToFront key c.lru })

/-- The sweep loop of `cleanExpiredItems`:
`for e := c.lru.Back(); e != nil; e = e.Prev()`, scanning the keys from back
to front (the argument is the reversed LRU list).  `none` models the Go
nil-pointer panic on `item.expiresAt` when a list key is missing from the
map; `some none` means the loop finished without removing anything;
`some (some k)` means the loop removed the entry for `k` and then stopped,
because `Remove` nils the element's links and the loop's `e = e.Prev()`
therefore yields nil. -/
def findExpiredFromBack (now : Nat) (items : List (String × Item)) :
    List String → Option (Option String)
  | [] => some none
  | k :: rest =>
    match mapGet items k with
    | none => none
    | some it =>
      if it.expiresAt = 0 then findExpiredFromBack now items rest
      else if it.expiresAt < now then some (some k)
      else findExpiredFromBack now items rest

/-- Go `(*Cache).cleanExpiredItems()` (the body of `RemoveExpired`): the
back-to-front sweep, then the shared capacity eviction step. -/
def Cache.cleanExpiredItems (now : Nat) (c : Cache) : Option Cache :=
  match findExpiredFromBack now c.items c.lru.reverse with
  | none => none
  | some none => some (evictIfOver c)
  | some (some k) => some (evictIfOver (removeEntry k c))

/-- Go `unicode.IsSpace` restricted to the ASCII whitespace characters
(space, tab, newline, carriage return, vertical tab, form feed). -/
def goIsSpace (c : Char) : Bool :=
  (c == ' ') || (c == '\t') || (c == '\n') || (c == '\r') ||
  (c == Char.ofNat 11) || (c == Char.ofNat 12)

/-- Splitter underlying Go `strings.Split(s, sep)` for a one-character
separator: consecutive separators yield empty fields. -/
def goSplitAux (sep : Char) : List Char → List (List Char)
  | [] => [[]]
  | ch :: rest =>
    let r := goSplitAux sep rest
    if ch = sep then [] :: r
    else
      match r with
      | [] => [[ch]]
      | t :: ts => (ch :: t) :: ts

/-- Go `strings.Split(s, " ")`. -/
def goSplit (s : String) : List String := (goSplitAux ' ' s.toList).map String.mk

/-- Splitter underlying Go `strings.Fields`: split at every whitespace
character. -/
def goFieldsSplit : List Char → List (List Char)
  | [] => [[]]
  | ch :: rest =>
    let r := goFieldsSplit rest
    if goIsSpace ch then [] :: r
    else
      match r with
      | [] => [[ch]]
      | t :: ts => (ch :: t) :: ts

/-- Go `strings.Fields(s)`: maximal runs of non-whitespace characters. -/
def goFields (s : String) : List String :=
  ((goFieldsSplit s.toList).filter (fun t => !t.isEmpty)).map String.mk

/-- Go `strings.TrimSpace`. -/
def goTrimSpace (s : String) : String :=
  String.mk (((s.toList.dropWhile goIsSpace).reverse.dropWhile goIsSpace).reverse)

/-- Go `strings.ToUpper` (ASCII). -/
def goToUpper (s : String) : String := String.mk (s.toList.map Char.toUpper)

/-- Go `strings.HasPrefix(s, pre)`. -/
def goHasPrefix (s pre : String) : Bool := pre.toList.isPrefixOf s.toList

/-- One iteration of the command loop of `(*Server).HandleConnection`:
given one received line, produce the response written to the connection and
the new cache/world state. -/
def handleLine (now : Nat) (message : String) (c : Cache) (w : World) :
    String × Cache × World :=
  let msg := goTrimSpace message
  let tokens := goSplit msg
  if tokens.length < 2 then ("Invalid command\n", c, w)
  else
    let cmd := goToUpper (tokens.getD 0 "")
    if cmd = "SET" then
      if tokens.length < 3 then ("Usage: SET key value\n", c, w)
      else
        let r := Cache.Set now (tokens.getD 1 "") (tokens.getD 2 "") hour false c w
        ("OK\n", r.1, r.2)
    else if cmd = "GET" then
      let r := Cache.Get now (tokens.getD 1 "") c
      if r.1.2 then (r.1.1 ++ "\n", r.2, w) else ("nil\n", r.2, w)
    else ("Unknown Command\n", c, w)

/-- One line of `replayAOF`'s scanner loop. -/
def replayStep (now : Nat) (cw : Cache × World) (line : String) : Cache × World :=
  if goHasPrefix line "SET" then
    let parts := goFields line
    if parts.length = 3 then
      Cache.Set now (parts.getD 1 "") (parts.getD 2 "") hour true cw.1 cw.2
    else cw
  else cw

/-- Go `replayAOF`: fold the scanner loop over the file's lines in order. -/
def replayAOF (now : Nat) (lines : List String) (c : Cache) (w : World) : Cache × World :=
  lines.foldl (replayStep now) (c, w)

/-- A sequence of `Set` calls (time, key, value, ttl, replaying), applied in
order. -/
def applySets (ops : List (Nat × String × String × Nat × Bool)) (c : Cache) (w : World) :
    Cache × World :=
  ops.foldl (fun cw op => Cache.Set op.1 op.2.1 op.2.2.1 op.2.2.2.1 op.2.2.2.2 cw.1 cw.2) (c, w)

/-- Structural invariant of a cache: the LRU list and the item map hold
exactly the same keys, without duplicates (the map/list bijection). -/
def wf (c : Cache) : Prop :=
  c.lru.Nodup ∧ (keys c.items).Nodup ∧
  (∀ k ∈ c.lru, k ∈ keys c.items) ∧ (∀ k ∈ keys c.items, k ∈ c.lru)

instance (c : Cache) : Decidable (wf c) := by
  unfold wf; infer_instance

/-- The acceptance test `replayAOF` applies to each line: a `"SET"` string
prefix and exactly three whitespace-separated fields. -/
def replayAccepts (line : String) : Bool :=
  goHasPrefix line "SET" && ((goFields line).length == 3)

/-- A fresh world: empty AOF file, working disk, empty server log. -/
def w0 : World := { aof := [], appendFails := false, serverLog := [] }

/-- A world whose underlying AOF file writes fail. -/
def wFail : World := { aof := [], appendFails := true, serverLog := [] }

/-- Two entries, both already expired at time 10 (`expiresAt = 5`), with
`"y"` at the least-recently-used end. -/
def cTwoExpired : Cache :=
  { items := [("x", ⟨"1", 5⟩), ("y", ⟨"2", 5⟩)], lru := ["x", "y"], maxSize := 5, persist := false }

/-- What one sweep of `cleanExpiredItems` at time 10 leaves of
`cTwoExpired`: the expired entry `"x"` is still present. -/
def cAfterSweep : Cache :=
  { items := [("x", ⟨"1", 5⟩)], lru := ["x"], maxSize := 5, persist := false }

/-- A cache holding three never-expiring entries although `maxSize = 1`. -/
def cBig : Cache :=
  { items := [("a", ⟨"1", 0⟩), ("b", ⟨"2", 0⟩), ("c", ⟨"3", 0⟩)], lru := ["a", "b", "c"],
    maxSize := 1, persist := false }

/-- What `cleanExpiredItems` leaves of `cBig`: still two entries, one over
capacity, because the eviction step runs only once. -/
def cBigAfter : Cache :=
  { items := [("a", ⟨"1", 0⟩), ("b", ⟨"2", 0⟩)], lru := ["a", "b"], maxSize := 1, persist := false }

/-- A cache exactly one entry over capacity. -/
def cW6 : Cache :=
  { items := [("a", ⟨"1", 0⟩), ("b", ⟨"2", 0⟩)], lru := ["a", "b"], maxSize := 1, persist := false }

/-- LRU scenario, step 1: `Set(a,1)` on an empty cache with `maxSize = 2`. -/
def c5s1 : Cache := (Cache.Set 0 "a" "1" hour false (NewCache 2 false) w0).1

/-- LRU scenario, step 2: `Set(b,2)`. -/
def c5s2 : Cache := (Cache.Set 0 "b" "2" hour false c5s1 w0).1

/-- LRU scenario, step 3: `Get(a)` (touches `a`, making `b` the LRU entry). -/
def c5g : (String × Bool) × Cache := Cache.Get 0 "a" c5s2

/-- LRU scenario, step 4: `Set(c,3)`, which must evict `b`. -/
def c5s3 : Cache := (Cache.Set 0 "c" "3" hour false c5g.2 w0).1

/-! ### Unfolding equations for the recursive helpers -/

@[simp] theorem keys_nil : keys [] = [] := rfl

@[simp] theorem keys_cons (p : String × Item) (r : List (String × Item)) :
    keys (p :: r) = p.1 :: keys r := rfl

@[simp] theorem mapGet_nil (k : String) : mapGet [] k = none := rfl

theorem mapGet_cons (p : String × Item) (r : List (String × Item)) (k : String) :
    mapGet (p :: r) k = if p.1 = k then some p.2 else mapGet r k := rfl

@[simp] theorem mapDelete_nil (k : String) : mapDelete k [] = [] := rfl

theorem mapDelete_cons (k : String) (p : String × Item) (r : List (String × Item)) :
    mapDelete k (p :: r) = if p.1 = k then mapDelete k r else p :: mapDelete k r := rfl

@[simp] theorem mapUpdate_nil (k v : String) (e : Nat) : mapUpdate k v e [] = [] := rfl

theorem mapUpdate_cons (k v : String) (e : Nat) (p : String × Item) (r : List (String × Item)) :
    mapUpdate k v e (p :: r) =
      if p.1 = k then (p.1, ⟨v, e⟩) :: mapUpdate k v e r else p :: mapUpdate k v e r := rfl

@[simp] theorem removeFirst_nil (k : String) : removeFirst k [] = [] := rfl

theorem removeFirst_cons (k x : String) (r : List String) :
    removeFirst k (x :: r) = if x = k then r else x :: removeFirst k r := rfl

/-! ### Association-map lemmas -/

theorem mapGet_eq_none_iff (m : List (String × Item)) (k : String) :
    mapGet m k = none ↔ k ∉ keys m := by
  induction m with
  | nil => simp
  | cons p r ih =>
    by_cases h : p.1 = k
    · subst h
      rw [mapGet_cons, if_pos rfl]
      simp
    · rw [mapGet_cons, if_neg h, keys_cons]
      rw [ih]
      simp only [List.mem_cons, not_or]
      constructor
      · intro hk
        exact ⟨Ne.symm h, hk⟩
      · intro hk
        exact hk.2

theorem mem_keys_of_mapGet_eq_some {m : List (String × Item)} {k : String} {it : Item}
    (h : mapGet m k = some it) : k ∈ keys m := by
  by_contra hk
  rw [← mapGet_eq_none_iff] at hk
  rw [h] at hk
  exact Option.noConfusion hk

theorem keys_mapUpdate (k v : String) (e : Nat) (m : List (String × Item)) :
    keys (mapUpdate k v e m) = keys m := by
  induction m with
  | nil => rfl
  | cons p r ih =>
    by_cases h : p.1 = k
    · rw [mapUpdate_cons, if_pos h, keys_cons, keys_cons, ih]
    · rw [mapUpdate_cons, if_neg h, keys_cons, keys_cons, ih]

theorem length_mapUpdate (k v : String) (e : Nat) (m : List (String × Item)) :
    (mapUpdate k v e m).length = m.length := by
  have h1 : (keys (mapUpdate k v e m)).length = (keys m).length := by
    rw [keys_mapUpdate]
  simpa [keys] using h1

theorem mapGet_mapUpdate_self {m : List (String × Item)} {k : String} (v : String) (e : Nat)
    (h : k ∈ keys m) : mapGet (mapUpdate k v e m) k = some ⟨v, e⟩ := by
  induction m with
  | nil => simp at h
  | cons p r ih =>
    by_cases hp : p.1 = k
    · rw [mapUpdate_cons, if_pos hp, mapGet_cons, if_pos hp]
    · have h' : k ∈ keys r := by
        rcases List.mem_cons.mp h with he | he
        · exact absurd he.symm hp
        · exact he
      rw [mapUpdate_cons, if_neg hp, mapGet_cons, if_neg hp]
      exact ih h'

theorem mem_keys_mapDelete_iff (j k : String) (m : List (String × Item)) :
    j ∈ keys (mapDelete k m) ↔ j ∈ keys m ∧ j ≠ k := by
  induction m with
  | nil => simp
  | cons p r ih =>
    by_cases h : p.1 = k
    · rw [mapDelete_cons, if_pos h, ih, keys_cons]
      simp only [List.mem_cons]
      constructor
      · rintro ⟨hj, hne⟩
        exact ⟨Or.inr hj, hne⟩
      · rintro ⟨hj | hj, hne⟩
        · rw [h] at hj
          exact absurd hj hne
        · exact ⟨hj, hne⟩
    · rw [mapDelete_cons, if_neg h, keys_cons, keys_cons]
      simp only [List.mem_cons, ih]
      constructor
      · rintro (hj | ⟨hj, hne⟩)
        · refine ⟨Or.inl hj, ?_⟩
          rw [hj]
          exact h
        · exact ⟨Or.inr hj, hne⟩
      · rintro ⟨hj | hj, hne⟩
        · exact Or.inl hj
        · exact Or.inr ⟨hj, hne⟩

theorem nodup_keys_mapDelete (k : String) {m : List (String × Item)}
    (h : (keys m).Nodup) : (keys (mapDelete k m)).Nodup := by
  induction m with
  | nil => simp
  | cons p r ih =>
    rw [keys_cons, List.nodup_cons] at h
    by_cases hp : p.1 = k
    · rw [mapDelete_cons, if_pos hp]
      exact ih h.2
    · rw [mapDelete_cons, if_neg hp, keys_cons, List.nodup_cons]
      refine ⟨fun hmem => ?_, ih h.2⟩
      exact h.1 ((mem_keys_mapDelete_iff p.1 k r).1 hmem).1

theorem mapDelete_eq_of_not_mem {k : String} {m : List (String × Item)}
    (h : k ∉ keys m) : mapDelete k m = m := by
  induction m with
  | nil => rfl
  | cons p r ih =>
    rw [keys_cons, List.mem_cons, not_or] at h
    rw [mapDelete_cons, if_neg (fun he => h.1 (Eq.symm he)), ih h.2]

theorem length_mapDelete_add_one {k : String} {m : List (String × Item)}
    (hnd : (keys m).Nodup) (hmem : k ∈ keys m) :
    (mapDelete k m).length + 1 = m.length := by
  induction m with
  | nil => simp at hmem
  | cons p r ih =>
    rw [keys_cons, List.nodup_cons] at hnd
    by_cases hp : p.1 = k
    · rw [mapDelete_cons, if_pos hp]
      rw [← hp] at hmem ⊢
      rw [mapDelete_eq_of_not_mem hnd.1]
      simp
    · have h' : k ∈ keys r := by
        rcases List.mem_cons.mp hmem with he | he
        · exact absurd he.symm hp
        · exact he
      rw [mapDelete_cons, if_neg hp, List.length_cons, List.length_cons,
        ← ih hnd.2 h']

theorem length_mapDelete_le (k : String) (m : List (String × Item)) :
    (mapDelete k m).length ≤ m.length := by
  induction m with
  | nil => simp
  | cons p r ih =>
    by_cases hp : p.1 = k
    · rw [mapDelete_cons, if_pos hp]
      exact Nat.le_succ_of_le ih
    · rw [mapDelete_cons, if_neg hp, List.length_cons, List.length_cons]
      omega

theorem mapGet_mapDelete_ne {j k : String} (hne : j ≠ k) (m : List (String × Item)) :
    mapGet (mapDelete k m) j = mapGet m j := by
  induction m with
  | nil => rfl
  | cons p r ih =>
    by_cases hp : p.1 = k
    · rw [mapDelete_cons, if_pos hp, ih, mapGet_cons,
        if_neg (fun he : p.1 = j => hne (by rw [← he, hp]))]
    · rw [mapDelete_cons, if_neg hp, mapGet_cons, mapGet_cons]
      by_cases hj : p.1 = j
      · rw [if_pos hj, if_pos hj]
      · rw [if_neg hj, if_neg hj, ih]

/-! ### LRU-list lemmas -/

theorem mem_of_mem_removeFirst {j k : String} {l : List String}
    (h : j ∈ removeFirst k l) : j ∈ l := by
  induction l with
  | nil => simp at h
  | cons x r ih =>
    by_cases hx : x = k
    · rw [removeFirst_cons, if_pos hx] at h
      exact List.mem_cons_of_mem x h
    · rw [removeFirst_cons, if_neg hx, List.mem_cons] at h
      rcases h with h | h
      · exact h ▸ List.mem_cons_self x r
      · exact List.mem_cons_of_mem x (ih h)

theorem mem_removeFirst_of_ne {j k : String} (hne : j ≠ k) (l : List String) :
    j ∈ removeFirst k l ↔ j ∈ l := by
  induction l with
  | nil => simp
  | cons x r ih =>
    by_cases hx : x = k
    · rw [removeFirst_cons, if_pos hx, List.mem_cons]
      constructor
      · exact Or.inr
      · rintro (he | hr)
        · rw [hx] at he
          exact absurd he hne
        · exact hr
    · rw [removeFirst_cons, if_neg hx, List.mem_cons, List.mem_cons, ih]

theorem nodup_removeFirst (k : String) {l : List String} (h : l.Nodup) :
    (removeFirst k l).Nodup := by
  induction l with
  | nil => simp
  | cons x r ih =>
    rw [List.nodup_cons] at h
    by_cases hx : x = k
    · rw [removeFirst_cons, if_pos hx]
      exact h.2
    · rw [removeFirst_cons, if_neg hx, List.nodup_cons]
      exact ⟨fun hmem => h.1 (mem_of_mem_removeFirst hmem), ih h.2⟩

theorem not_mem_removeFirst_self {k : String} {l : List String} (h : l.Nodup) :
    k ∉ removeFirst k l := by
  induction l with
  | nil => simp
  | cons x r ih =>
    rw [List.nodup_cons] at h
    by_cases hx : x = k
    · rw [removeFirst_cons, if_pos hx, ← hx]
      exact h.1
    · rw [removeFirst_cons, if_neg hx, List.mem_cons, not_or]
      exact ⟨fun he => hx (Eq.symm he), ih h.2⟩

theorem removeFirst_eq_of_not_mem {k : String} {l : List String} (h : k ∉ l) :
    removeFirst k l = l := by
  induction l with
  | nil => rfl
  | cons x r ih =>
    rw [List.mem_cons, not_or] at h
    rw [removeFirst_cons, if_neg (fun he => h.1 (Eq.symm he)), ih h.2]

theorem length_removeFirst_add_one {k : String} {l : List String} (h : k ∈ l) :
    (removeFirst k l).length + 1 = l.length := by
  induction l with
  | nil => simp at h
  | cons x r ih =>
    by_cases hx : x = k
    · rw [removeFirst_cons, if_pos hx, List.length_cons]
    · have h' : k ∈ r := by
        rcases List.mem_cons.mp h with he | he
        · exact absurd he.symm hx
        · exact he
      rw [removeFirst_cons, if_neg hx, List.length_cons, List.length_cons, ← ih h']

theorem length_removeFirst_le (k : String) (l : List String) :
    (removeFirst k l).length ≤ l.length := by
  by_cases h : k ∈ l
  · have := length_removeFirst_add_one h
    omega
  · rw [removeFirst_eq_of_not_mem h]

theorem lastKey_mem : ∀ {l : List String} {a : String}, lastKey l = some a → a ∈ l := by
  intro l
  induction l with
  | nil =>
    intro a h
    simp [lastKey] at h
  | cons x r ih =>
    intro a h
    cases r with
    | nil =>
      simp only [lastKey, Option.some_inj] at h
      simp [h]
    | cons y s =>
      simp only [lastKey] at h
      exact List.mem_cons_of_mem x (ih h)

theorem lastKey_isSome {l : List String} (h : l ≠ []) : ∃ a, lastKey l = some a := by
  induction l with
  | nil => exact absurd rfl h
  | cons x r ih =>
    cases r with
    | nil => exact ⟨x, rfl⟩
    | cons y s =>
      rcases ih (by simp) with ⟨a, ha⟩
      exact ⟨a, ha⟩

theorem lastKey_cons_of_ne_nil {l : List String} (x : String) (h : l ≠ []) :
    lastKey (x :: l) = lastKey l := by
  cases l with
  | nil => exact absurd rfl h
  | cons y s => rfl

theorem moveToFront_eq (k : String) (l : List String) :
    moveToFront k l = k :: removeFirst k l := rfl

theorem length_moveToFront {k : String} {l : List String} (h : k ∈ l) :
    (moveToFront k l).length = l.length := by
  rw [moveToFront_eq, List.length_cons]
  have := length_removeFirst_add_one h
  omega

/-! ### Cache-level invariant lemmas -/

theorem wf_length {c : Cache} (h : wf c) : c.items.length = c.lru.length := by
  obtain ⟨hn1, hn2, hsub1, hsub2⟩ := h
  have hsp1 : List.Subperm c.lru (keys c.items) := hn1.subperm (fun a ha => hsub1 a ha)
  have hsp2 : List.Subperm (keys c.items) c.lru := hn2.subperm (fun a ha => hsub2 a ha)
  have h1 := hsp1.length_le
  have h2 := hsp2.length_le
  have e1 : (keys c.items).length = c.items.length := by simp [keys]
  omega

@[simp] theorem lru_removeEntry (k : String) (c : Cache) :
    (removeEntry k c).lru = removeFirst k c.lru := rfl

@[simp] theorem items_removeEntry (k : String) (c : Cache) :
    (removeEntry k c).items = mapDelete k c.items := rfl

@[simp] theorem maxSize_removeEntry (k : String) (c : Cache) :
    (removeEntry k c).maxSize = c.maxSize := rfl

@[simp] theorem persist_removeEntry (k : String) (c : Cache) :
    (removeEntry k c).persist = c.persist := rfl

theorem wf_removeEntry (k : String) {c : Cache} (h : wf c) : wf (removeEntry k c) := by
  obtain ⟨hn1, hn2, hsub1, hsub2⟩ := h
  refine ⟨nodup_removeFirst k hn1, nodup_keys_mapDelete k hn2, ?_, ?_⟩
  · intro j hj
    rw [lru_removeEntry] at hj
    have hjl : j ∈ c.lru := mem_of_mem_removeFirst hj
    have hjk : j ≠ k := by
      intro he
      rw [he] at hj
      exact not_mem_removeFirst_self hn1 hj
    rw [items_removeEntry]
    exact (mem_keys_mapDelete_iff j k _).2 ⟨hsub1 j hjl, hjk⟩
  · intro j hj
    rw [items_removeEntry] at hj
    obtain ⟨hjm, hjk⟩ := (mem_keys_mapDelete_iff j k _).1 hj
    rw [lru_removeEntry]
    exact (mem_removeFirst_of_ne hjk _).2 (hsub2 j hjm)

theorem evictIfOver_of_le {c : Cache} (h : c.lru.length ≤ c.maxSize) : evictIfOver c = c := by
  unfold evictIfOver
  rw [if_neg (by omega)]

theorem wf_evictIfOver {c : Cache} (h : wf c) : wf (evictIfOver c) := by
  unfold evictIfOver
  by_cases hlt : c.maxSize < c.lru.length
  · rw [if_pos hlt]
    cases hl : lastKey c.lru with
    | none => exact h
    | some oldest => exact wf_removeEntry oldest h
  · rw [if_neg hlt]
    exact h

theorem length_evictIfOver_le {c : Cache} (h : c.lru.length ≤ c.maxSize + 1) :
    (evictIfOver c).lru.length ≤ c.maxSize := by
  unfold evictIfOver
  by_cases hlt : c.maxSize < c.lru.length
  · rw [if_pos hlt]
    have hne : c.lru ≠ [] := by
      intro he
      rw [he] at hlt
      simp at hlt
    obtain ⟨a, ha⟩ := lastKey_isSome hne
    rw [ha]
    have hmem := lastKey_mem ha
    have hlen := length_removeFirst_add_one hmem
    rw [lru_removeEntry]
    omega
  · rw [if_neg hlt]
    omega

theorem maxSize_evictIfOver (c : Cache) : (evictIfOver c).maxSize = c.maxSize := by
  unfold evictIfOver
  by_cases hlt : c.maxSize < c.lru.length
  · rw [if_pos hlt]
    cases lastKey c.lru with
    | none => rfl
    | some oldest => rfl
  · rw [if_neg hlt]

theorem persist_evictIfOver (c : Cache) : (evictIfOver c).persist = c.persist := by
  unfold evictIfOver
  by_cases hlt : c.maxSize < c.lru.length
  · rw [if_pos hlt]
    cases lastKey c.lru with
    | none => rfl
    | some oldest => rfl
  · rw [if_neg hlt]

/-- The in-memory half of `Cache.Set`, written out by cases on the map probe. -/
theorem Set_cache_eq (now : Nat) (k v : String) (ttl : Nat) (r : Bool) (c : Cache) (w : World) :
    (Cache.Set now k v ttl r c w).1 =
      evictIfOver
        (match mapGet c.items k with
         | some _ =>
           { c with items := mapUpdate k v (if ttl ≠ 0 then now + ttl else 0) c.items,
                    lru := moveToFront k c.lru }
         | none =>
           { c with lru := k :: c.lru,
                    items := (k, ⟨v, if ttl ≠ 0 then now + ttl else 0⟩) :: c.items }) := rfl

/-- A recency touch (optionally rewriting values in place) preserves the
map/list bijection. -/
theorem wf_touch {c : Cache} (h : wf c) {k : String} (hk : k ∈ c.lru)
    {m' : List (String × Item)} (hkeys : keys m' = keys c.items) :
    wf { c with items := m', lru := moveToFront k c.lru } := by
  obtain ⟨hn1, hn2, hsub1, hsub2⟩ := h
  refine ⟨?_, ?_, ?_, ?_⟩
  · show (moveToFront k c.lru).Nodup
    rw [moveToFront_eq]
    exact List.nodup_cons.2 ⟨not_mem_removeFirst_self hn1, nodup_removeFirst k hn1⟩
  · show (keys m').Nodup
    rw [hkeys]
    exact hn2
  · intro j hj
    show j ∈ keys m'
    rw [hkeys]
    rw [show ({ c with items := m', lru := moveToFront k c.lru} : Cache).lru = moveToFront k c.lru from rfl,
      moveToFront_eq, List.mem_cons] at hj
    rcases hj with he | hj'
    · rw [he]
      exact hsub1 k hk
    · exact hsub1 j (mem_of_mem_removeFirst hj')
  · intro j hj
    show j ∈ moveToFront k c.lru
    rw [show ({ c with items := m', lru := moveToFront k c.lru} : Cache).items = m' from rfl] at hj
    rw [hkeys] at hj
    rw [moveToFront_eq, List.mem_cons]
    by_cases hjk : j = k
    · exact Or.inl hjk
    · exact Or.inr ((mem_removeFirst_of_ne hjk _).2 (hsub2 j hj))

theorem wf_Set (now : Nat) (k v : String) (ttl : Nat) (r : Bool) (c : Cache) (w : World)
    (h : wf c) : wf (Cache.Set now k v ttl r c w).1 := by
  rw [Set_cache_eq]
  cases hm : mapGet c.items k with
  | some it =>
    apply wf_evictIfOver
    have hkm : k ∈ keys c.items := mem_keys_of_mapGet_eq_some hm
    exact wf_touch h (h.2.2.2 k hkm) (keys_mapUpdate k v _ c.items)
  | none =>
    apply wf_evictIfOver
    obtain ⟨hn1, hn2, hsub1, hsub2⟩ := h
    have hkm : k ∉ keys c.items := (mapGet_eq_none_iff _ _).1 hm
    have hkl : k ∉ c.lru := fun hx => hkm (hsub1 k hx)
    refine ⟨List.nodup_cons.2 ⟨hkl, hn1⟩, ?_, ?_, ?_⟩
    · show (keys ((k, ⟨v, if ttl ≠ 0 then now + ttl else 0⟩) :: c.items)).Nodup
      rw [keys_cons]
      exact List.nodup_cons.2 ⟨hkm, hn2⟩
    · intro j hj
      show j ∈ keys ((k, _) :: c.items)
      rw [keys_cons]
      rcases List.mem_cons.mp hj with he | hj'
      · rw [he]
        exact List.mem_cons_self _ _
      · exact List.mem_cons_of_mem _ (hsub1 j hj')
    · intro j hj
      show j ∈ k :: c.lru
      rw [show keys ((k, (⟨v, if ttl ≠ 0 then now + ttl else 0⟩ : Item)) :: c.items) =
            k :: keys c.items from rfl, List.mem_cons] at hj
      rcases hj with he | hj'
      · rw [he]
        exact List.mem_cons_self _ _
      · exact List.mem_cons_of_mem _ (hsub2 j hj')

theorem length_lru_Set_le (now : Nat) (k v : String) (ttl : Nat) (r : Bool) (c : Cache)
    (w : World) (h : wf c) (hle : c.lru.length ≤ c.maxSize) :
    (Cache.Set now k v ttl r c w).1.lru.length ≤ c.maxSize := by
  rw [Set_cache_eq]
  cases hm : mapGet c.items k with
  | some it =>
    have hkm : k ∈ keys c.items := mem_keys_of_mapGet_eq_some hm
    have hkl : k ∈ c.lru := h.2.2.2 k hkm
    apply length_evictIfOver_le
    show (moveToFront k c.lru).length ≤ c.maxSize + 1
    rw [length_moveToFront hkl]
    omega
  | none =>
    apply length_evictIfOver_le
    show (k :: c.lru).length ≤ c.maxSize + 1
    rw [List.length_cons]
    omega

theorem maxSize_Set (now : Nat) (k v : String) (ttl : Nat) (r : Bool) (c : Cache) (w : World) :
    (Cache.Set now k v ttl r c w).1.maxSize = c.maxSize := by
  rw [Set_cache_eq]
  cases hm : mapGet c.items k with
  | some it => rw [maxSize_evictIfOver]
  | none => rw [maxSize_evictIfOver]

/-- The cache half of `Cache.Get`, written out by cases. -/
theorem Get_cache_eq (now : Nat) (k : String) (c : Cache) :
    (Cache.Get now k c).2 =
      match mapGet c.items k with
      | none => c
      | some item =>
        if item.expiresAt ≠ 0 ∧ item.expiresAt < now then removeEntry k c
        else { c with lru := moveToFront k c.lru } := by
  unfold Cache.Get
  cases mapGet c.items k with
  | none => rfl
  | some item =>
    dsimp only
    by_cases he : item.expiresAt ≠ 0 ∧ item.expiresAt < now
    · rw [if_pos he, if_pos he]
    · rw [if_neg he, if_neg he]

theorem wf_Get (now : Nat) (k : String) (c : Cache) (h : wf c) :
    wf (Cache.Get now k c).2 := by
  rw [Get_cache_eq]
  cases hm : mapGet c.items k with
  | none => exact h
  | some item =>
    dsimp only
    by_cases he : item.expiresAt ≠ 0 ∧ item.expiresAt < now
    · rw [if_pos he]
      exact wf_removeEntry k h
    · rw [if_neg he]
      have hkm : k ∈ keys c.items := mem_keys_of_mapGet_eq_some hm
      exact wf_touch h (h.2.2.2 k hkm) rfl

theorem length_lru_Get_le (now : Nat) (k : String) (c : Cache) (h : wf c) :
    (Cache.Get now k c).2.lru.length ≤ c.lru.length := by
  rw [Get_cache_eq]
  cases hm : mapGet c.items k with
  | none => exact Nat.le_refl _
  | some item =>
    dsimp only
    by_cases he : item.expiresAt ≠ 0 ∧ item.expiresAt < now
    · rw [if_pos he, lru_removeEntry]
      exact length_removeFirst_le k c.lru
    · rw [if_neg he]
      have hkm : k ∈ keys c.items := mem_keys_of_mapGet_eq_some hm
      have hkl : k ∈ c.lru := h.2.2.2 k hkm
      show (moveToFront k c.lru).length ≤ c.lru.length
      rw [length_moveToFront hkl]

theorem maxSize_Get (now : Nat) (k : String) (c : Cache) :
    (Cache.Get now k c).2.maxSize = c.maxSize := by
  rw [Get_cache_eq]
  cases mapGet c.items k with
  | none => rfl
  | some item =>
    dsimp only
    by_cases he : item.expiresAt ≠ 0 ∧ item.expiresAt < now
    · rw [if_pos he, maxSize_removeEntry]
    · rw [if_neg he]

/-! ### Sweep lemmas -/

theorem findExpiredFromBack_cons (now : Nat) (items : List (String × Item)) (k : String)
    (rest : List String) :
    findExpiredFromBack now items (k :: rest) =
      match mapGet items k with
      | none => none
      | some it =>
        if it.expiresAt = 0 then findExpiredFromBack now items rest
        else if it.expiresAt < now then some (some k)
        else findExpiredFromBack now items rest := rfl

theorem mapGet_isSome_of_mem {m : List (String × Item)} {k : String} (h : k ∈ keys m) :
    ∃ it, mapGet m k = some it := by
  cases hg : mapGet m k with
  | none => exact absurd h ((mapGet_eq_none_iff m k).1 hg)
  | some it => exact ⟨it, rfl⟩

theorem find_some_of_sub {now : Nat} {items : List (String × Item)} {l : List String}
    (h : ∀ k ∈ l, k ∈ keys items) :
    ∃ r, findExpiredFromBack now items l = some r := by
  induction l with
  | nil => exact ⟨none, rfl⟩
  | cons k rest ih =>
    obtain ⟨it, hit⟩ := mapGet_isSome_of_mem (h k (List.mem_cons_self _ _))
    rw [findExpiredFromBack_cons, hit]
    dsimp only
    by_cases h0 : it.expiresAt = 0
    · rw [if_pos h0]
      exact ih (fun j hj => h j (List.mem_cons_of_mem _ hj))
    · rw [if_neg h0]
      by_cases h1 : it.expiresAt < now
      · rw [if_pos h1]
        exact ⟨some k, rfl⟩
      · rw [if_neg h1]
        exact ih (fun j hj => h j (List.mem_cons_of_mem _ hj))

theorem find_mem {now : Nat} {items : List (String × Item)} :
    ∀ {l : List String} {k : String},
      findExpiredFromBack now items l = some (some k) → k ∈ l := by
  intro l
  induction l with
  | nil =>
    intro k h
    simp [findExpiredFromBack] at h
  | cons x rest ih =>
    intro k h
    rw [findExpiredFromBack_cons] at h
    cases hg : mapGet items x with
    | none =>
      rw [hg] at h
      exact absurd h (by simp)
    | some it =>
      rw [hg] at h
      dsimp only at h
      by_cases h0 : it.expiresAt = 0
      · rw [if_pos h0] at h
        exact List.mem_cons_of_mem x (ih h)
      · rw [if_neg h0] at h
        by_cases h1 : it.expiresAt < now
        · rw [if_pos h1] at h
          have : x = k := by
            simpa using h
          rw [← this]
          exact List.mem_cons_self x rest
        · rw [if_neg h1] at h
          exact List.mem_cons_of_mem x (ih h)

theorem clean_eq (now : Nat) (c : Cache) :
    Cache.cleanExpiredItems now c =
      match findExpiredFromBack now c.items c.lru.reverse with
      | none => none
      | some none => some (evictIfOver c)
      | some (some k) => some (evictIfOver (removeEntry k c)) := rfl

/-- On any wellformed cache the sweep completes (no nil dereference), the
result is wellformed, and the size cannot end above `maxSize` unless it
started at least two above it. -/
theorem clean_spec {now : Nat} {c : Cache} (h : wf c) :
    ∃ c', Cache.cleanExpiredItems now c = some c' ∧ wf c' ∧
      (c.lru.length ≤ c.maxSize + 1 → c'.lru.length ≤ c.maxSize) ∧
      c'.maxSize = c.maxSize := by
  have hsub : ∀ k ∈ c.lru.reverse, k ∈ keys c.items := by
    intro k hk
    exact h.2.2.1 k (List.mem_reverse.1 hk)
  obtain ⟨r, hr⟩ := find_some_of_sub hsub
  cases r with
  | none =>
    refine ⟨evictIfOver c, ?_, wf_evictIfOver h, ?_, maxSize_evictIfOver c⟩
    · rw [clean_eq, hr]
    · intro hle
      exact length_evictIfOver_le hle
  | some k =>
    refine ⟨evictIfOver (removeEntry k c), ?_, wf_evictIfOver (wf_removeEntry k h), ?_, ?_⟩
    · rw [clean_eq, hr]
    · intro hle
      have hrem : (removeEntry k c).lru.length ≤ (removeEntry k c).maxSize + 1 := by
        rw [lru_removeEntry, maxSize_removeEntry]
        exact le_trans (length_removeFirst_le k c.lru) hle
      have := length_evictIfOver_le hrem
      rw [maxSize_removeEntry] at this
      exact this
    · rw [maxSize_evictIfOver, maxSize_removeEntry]

/-! ### Sequences of Set operations -/

theorem applySets_cons (op : Nat × String × String × Nat × Bool)
    (rest : List (Nat × String × String × Nat × Bool)) (c : Cache) (w : World) :
    applySets (op :: rest) c w =
      applySets rest (Cache.Set op.1 op.2.1 op.2.2.1 op.2.2.2.1 op.2.2.2.2 c w).1
        (Cache.Set op.1 op.2.1 op.2.2.1 op.2.2.2.1 op.2.2.2.2 c w).2 := rfl

theorem applySets_wf_le :
    ∀ (ops : List (Nat × String × String × Nat × Bool)) (c : Cache) (w : World),
      wf c → c.lru.length ≤ c.maxSize →
      wf (applySets ops c w).1 ∧ (applySets ops c w).1.lru.length ≤ c.maxSize ∧
        (applySets ops c w).1.maxSize = c.maxSize := by
  intro ops
  induction ops with
  | nil =>
    intro c w h hle
    exact ⟨h, hle, rfl⟩
  | cons op rest ih =>
    intro c w h hle
    rw [applySets_cons]
    have hwf := wf_Set op.1 op.2.1 op.2.2.1 op.2.2.2.1 op.2.2.2.2 c w h
    have hlen := length_lru_Set_le op.1 op.2.1 op.2.2.1 op.2.2.2.1 op.2.2.2.2 c w h hle
    have hmax := maxSize_Set op.1 op.2.1 op.2.2.1 op.2.2.2.1 op.2.2.2.2 c w
    have := ih (Cache.Set op.1 op.2.1 op.2.2.1 op.2.2.2.1 op.2.2.2.2 c w).1
      (Cache.Set op.1 op.2.1 op.2.2.1 op.2.2.2.1 op.2.2.2.2 c w).2 hwf (by rw [hmax]; exact hlen)
    rw [hmax] at this
    exact this

/-! ### World-effect lemmas -/

/-- The world half of `Cache.Set`, written out. -/
theorem Set_world_eq (now : Nat) (k v : String) (ttl : Nat) (r : Bool) (c : Cache) (w : World) :
    (Cache.Set now k v ttl r c w).2 =
      if c.persist ∧ ¬ r then
        match Persistence.Append ("SET " ++ k ++ " " ++ v) w with
        | (Except.ok _, w1) => w1
        | (Except.error e, w1) =>
          { w1 with serverLog := w1.serverLog ++ ["Failed to append to AOF file: " ++ e] }
      else w := rfl

theorem Set_world_replay (now : Nat) (k v : String) (ttl : Nat) (c : Cache) (w : World) :
    (Cache.Set now k v ttl true c w).2 = w := by
  rw [Set_world_eq, if_neg (by simp)]

theorem Set_world_fail (now : Nat) (k v : String) (ttl : Nat) (c : Cache) (w : World)
    (hc : c.persist = true) (hw : w.appendFails = true) :
    (Cache.Set now k v ttl false c w).2 =
      { w with serverLog := w.serverLog ++ ["Failed to append to AOF file: write error"] } := by
  rw [Set_world_eq, if_pos (by simp [hc])]
  unfold Persistence.Append
  rw [if_pos hw]
  rfl

theorem Set_world_ok (now : Nat) (k v : String) (ttl : Nat) (c : Cache) (w : World)
    (hc : c.persist = true) (hw : w.appendFails = false) :
    (Cache.Set now k v ttl false c w).2 =
      { w with aof := w.aof ++ ["SET " ++ k ++ " " ++ v] } := by
  rw [Set_world_eq, if_pos (by simp [hc])]
  unfold Persistence.Append
  rw [if_neg (by simp [hw])]

/-- The in-memory result of `Set` does not depend on the world at all. -/
theorem Set_cache_world_irrel (now : Nat) (k v : String) (ttl : Nat) (r : Bool) (c : Cache)
    (w w' : World) :
    (Cache.Set now k v ttl r c w).1 = (Cache.Set now k v ttl r c w').1 := by
  rw [Set_cache_eq, Set_cache_eq]

theorem handleLine_world_of_ne (now : Nat) (msg : String) (c : Cache) (w : World)
    (h : goToUpper ((goSplit (goTrimSpace msg)).getD 0 "") ≠ "SET") :
    (handleLine now msg c w).2.2 = w := by
  unfold handleLine
  by_cases h2 : (goSplit (goTrimSpace msg)).length < 2
  · rw [if_pos h2]
  · rw [if_neg h2, if_neg h]
    by_cases hg : goToUpper ((goSplit (goTrimSpace msg)).getD 0 "") = "GET"
    · rw [if_pos hg]
      dsimp only
      by_cases hf : (Cache.Get now ((goSplit (goTrimSpace msg)).getD 1 "") c).1.2
      · rw [if_pos hf]
      · rw [if_neg hf]
    · rw [if_neg hg]

theorem replayStep_world (now : Nat) (cw : Cache × World) (line : String) :
    (replayStep now cw line).2 = cw.2 := by
  unfold replayStep
  by_cases hp : goHasPrefix line "SET"
  · rw [if_pos hp]
    dsimp only
    by_cases hl : (goFields line).length = 3
    · rw [if_pos hl]
      exact Set_world_replay now _ _ hour cw.1 cw.2
    · rw [if_neg hl]
  · rw [if_neg hp]

theorem replayAOF_world (now : Nat) (lines : List String) :
    ∀ (c : Cache) (w : World), (replayAOF now lines c w).2 = w := by
  induction lines with
  | nil =>
    intro c w
    rfl
  | cons line rest ih =>
    intro c w
    have hstep : replayAOF now (line :: rest) c w =
        replayAOF now rest (replayStep now (c, w) line).1 (replayStep now (c, w) line).2 := rfl
    rw [hstep, ih, replayStep_world]

/-! ### Replay characterization -/

theorem replayAOF_filter (now : Nat) :
    ∀ (lines : List String) (c : Cache) (w : World),
      replayAOF now lines c w =
        (lines.filter replayAccepts).foldl
          (fun cw line =>
            Cache.Set now ((goFields line).getD 1 "") ((goFields line).getD 2 "") hour true
              cw.1 cw.2)
          (c, w) := by
  intro lines
  induction lines with
  | nil =>
    intro c w
    rfl
  | cons line rest ih =>
    intro c w
    have hstep : replayAOF now (line :: rest) c w =
        replayAOF now rest (replayStep now (c, w) line).1 (replayStep now (c, w) line).2 := rfl
    by_cases hp : goHasPrefix line "SET"
    · by_cases hl : (goFields line).length = 3
      · have hacc : replayAccepts line = true := by
          unfold replayAccepts
          rw [hp, hl]
          simp
        have hone : replayStep now (c, w) line =
            Cache.Set now ((goFields line).getD 1 "") ((goFields line).getD 2 "") hour true c w := by
          unfold replayStep
          rw [if_pos hp]
          dsimp only
          rw [if_pos hl]
        rw [hstep, hone, ih, List.filter_cons, if_pos hacc, List.foldl_cons]
      · have hacc : replayAccepts line = false := by
          unfold replayAccepts
          rw [hp]
          simp [hl]
        have hone : replayStep now (c, w) line = (c, w) := by
          unfold replayStep
          rw [if_pos hp]
          dsimp only
          rw [if_neg hl]
        rw [hstep, hone, ih, List.filter_cons, if_neg (by rw [hacc]; simp)]
    · have hpf : goHasPrefix line "SET" = false := by
        cases hgp : goHasPrefix line "SET"
        · rfl
        · exact absurd hgp hp
      have hacc : replayAccepts line = false := by
        unfold replayAccepts
        rw [hpf]
        simp
      have hone : replayStep now (c, w) line = (c, w) := by
        unfold replayStep
        rw [if_neg hp]
      rw [hstep, hone, ih, List.filter_cons, if_neg (by rw [hacc]; simp)]

/-! ### Presence after Set -/

/-- Inserting a fresh key at the front and then running the eviction step
keeps the fresh binding, as long as the cache had spare structure
(`maxSize` positive and previously within capacity): eviction removes the
back, which is not the freshly pushed front. -/
theorem mapGet_evictIfOver_push (k : String) (it : Item) (c : Cache)
    (hkl : k ∉ c.lru) (hle : c.lru.length ≤ c.maxSize) (hpos : 0 < c.maxSize) :
    mapGet (evictIfOver { c with lru := k :: c.lru, items := (k, it) :: c.items }).items k = some it := by
  by_cases hover : c.maxSize < c.lru.length + 1
  · have hlen : c.lru.length = c.maxSize := by omega
    have hnil : c.lru ≠ [] := by
      intro he
      rw [he] at hlen
      simp at hlen
      omega
    obtain ⟨o, ho⟩ := lastKey_isSome hnil
    have homem := lastKey_mem ho
    have hok : ¬ (k = o) := fun he => hkl (by rw [he]; exact homem)
    have hcond : ({ c with lru := k :: c.lru, items := (k, it) :: c.items } : Cache).maxSize < ({ c with lru := k :: c.lru, items := (k, it) :: c.items } : Cache).lru.length := by
      show c.maxSize < (k :: c.lru).length
      rw [List.length_cons]
      omega
    have hlast : lastKey ({ c with lru := k :: c.lru, items := (k, it) :: c.items } : Cache).lru = some o := by
      show lastKey (k :: c.lru) = some o
      rw [lastKey_cons_of_ne_nil k hnil, ho]
    unfold evictIfOver
    rw [if_pos hcond, hlast]
    simp [mapDelete_cons, mapGet_cons, hok]
  · have hc : ({ c with lru := k :: c.lru, items := (k, it) :: c.items } : Cache).lru.length ≤ ({ c with lru := k :: c.lru, items := (k, it) :: c.items } : Cache).maxSize := by
      show (k :: c.lru).length ≤ c.maxSize
      rw [List.length_cons]
      omega
    rw [evictIfOver_of_le hc]
    simp [mapGet_cons]

theorem mapGet_Set_self (now : Nat) (k v : String) (ttl : Nat) (r : Bool) (c : Cache) (w : World)
    (h : wf c) (hle : c.lru.length ≤ c.maxSize) (hpos : 0 < c.maxSize) :
    mapGet (Cache.Set now k v ttl r c w).1.items k =
      some ⟨v, if ttl ≠ 0 then now + ttl else 0⟩ := by
  rw [Set_cache_eq]
  cases hm : mapGet c.items k with
  | some it =>
    dsimp only
    have hkm : k ∈ keys c.items := mem_keys_of_mapGet_eq_some hm
    have hkl : k ∈ c.lru := h.2.2.2 k hkm
    have hlen1 : ({ c with items := mapUpdate k v (if ttl ≠ 0 then now + ttl else 0) c.items, lru := moveToFront k c.lru } : Cache).lru.length ≤ ({ c with items := mapUpdate k v (if ttl ≠ 0 then now + ttl else 0) c.items, lru := moveToFront k c.lru } : Cache).maxSize := by
      show (moveToFront k c.lru).length ≤ c.maxSize
      rw [length_moveToFront hkl]
      exact hle
    rw [evictIfOver_of_le hlen1]
    exact mapGet_mapUpdate_self v _ hkm
  | none =>
    dsimp only
    have hkm : k ∉ keys c.items := (mapGet_eq_none_iff _ _).1 hm
    have hkl : k ∉ c.lru := fun hx => hkm (h.2.2.1 k hx)
    exact mapGet_evictIfOver_push k ⟨v, if ttl ≠ 0 then now + ttl else 0⟩ c hkl hle hpos

theorem Get_found_of_mapGet {now : Nat} {k : String} {c : Cache} {it : Item}
    (h : mapGet c.items k = some it) (hne : ¬(it.expiresAt ≠ 0 ∧ it.expiresAt < now)) :
    (Cache.Get now k c).1 = (it.value, true) := by
  unfold Cache.Get
  rw [h]
  dsimp only
  rw [if_neg hne]

theorem wf_NewCache (n : Nat) (p : Bool) : wf (NewCache n p) :=
  ⟨List.nodup_nil, List.nodup_nil, fun k hk => absurd hk (List.not_mem_nil k),
    fun k hk => absurd hk (List.not_mem_nil k)⟩

/-! ### The claims -/

/-- C1: after every completed public operation (`Set`, `Get`,
`cleanExpiredItems`) on a wellformed cache within capacity, the item map and
the recency list hold the same keys without duplicates, their common size is
at most `maxSize`; and every sequence of `Set` operations on a cache
constructed with positive `maxSize` keeps at most `maxSize` entries after
each operation (the prefix property follows because the sequence is
universally quantified). -/
theorem spec_C1 :
    (∀ (now : Nat) (k v : String) (ttl : Nat) (r : Bool) (c : Cache) (w : World),
      wf c → c.items.length ≤ c.maxSize →
      wf (Cache.Set now k v ttl r c w).1 ∧
      (Cache.Set now k v ttl r c w).1.items.length = (Cache.Set now k v ttl r c w).1.lru.length ∧
      (Cache.Set now k v ttl r c w).1.items.length ≤ c.maxSize) ∧
    (∀ (now : Nat) (k : String) (c : Cache),
      wf c → c.items.length ≤ c.maxSize →
      wf (Cache.Get now k c).2 ∧
      (Cache.Get now k c).2.items.length = (Cache.Get now k c).2.lru.length ∧
      (Cache.Get now k c).2.items.length ≤ c.maxSize) ∧
    (∀ (now : Nat) (c : Cache),
      wf c → c.items.length ≤ c.maxSize →
      ∃ c', Cache.cleanExpiredItems now c = some c' ∧ wf c' ∧
        c'.items.length = c'.lru.length ∧ c'.items.length ≤ c.maxSize) ∧
    (∀ (maxSize : Nat) (persist : Bool) (ops : List (Nat × String × String × Nat × Bool))
      (w : World), 0 < maxSize →
      wf (applySets ops (NewCache maxSize persist) w).1 ∧
      (applySets ops (NewCache maxSize persist) w).1.items.length ≤ maxSize) := by
  refine ⟨?_, ?_, ?_, ?_⟩
  · intro now k v ttl r c w h hle
    have hle1 : c.lru.length ≤ c.maxSize := by
      rw [← wf_length h]
      exact hle
    have hwf := wf_Set now k v ttl r c w h
    have hlen := length_lru_Set_le now k v ttl r c w h hle1
    have heq := wf_length hwf
    refine ⟨hwf, heq, ?_⟩
    rw [heq]
    exact hlen
  · intro now k c h hle
    have hle1 : c.lru.length ≤ c.maxSize := by
      rw [← wf_length h]
      exact hle
    have hwf := wf_Get now k c h
    have hlen := length_lru_Get_le now k c h
    have heq := wf_length hwf
    refine ⟨hwf, heq, ?_⟩
    rw [heq]
    exact le_trans hlen hle1
  · intro now c h hle
    have hle1 : c.lru.length ≤ c.maxSize := by
      rw [← wf_length h]
      exact hle
    obtain ⟨c', hc', hwf, hsize, hmax⟩ := clean_spec h
    refine ⟨c', hc', hwf, wf_length hwf, ?_⟩
    rw [wf_length hwf]
    exact hsize (by omega)
  · intro maxSize persist ops w hpos
    obtain ⟨hwf, hlen, hmax⟩ :=
      applySets_wf_le ops (NewCache maxSize persist) w (wf_NewCache maxSize persist)
        (Nat.zero_le maxSize)
    refine ⟨hwf, ?_⟩
    rw [wf_length hwf]
    exact hlen

theorem spec_C1_witness :
    (0 : Nat) < 2 ∧ wf (NewCache 2 true) ∧
    (NewCache 2 true).items.length ≤ (NewCache 2 true).maxSize ∧
    (wf (Cache.Set 0 "k" "v" 0 false (NewCache 2 true) w0).1 ∧
      (Cache.Set 0 "k" "v" 0 false (NewCache 2 true) w0).1.items.length =
        (Cache.Set 0 "k" "v" 0 false (NewCache 2 true) w0).1.lru.length ∧
      (Cache.Set 0 "k" "v" 0 false (NewCache 2 true) w0).1.items.length ≤
        (NewCache 2 true).maxSize) ∧
    (wf (applySets [(0, "a", "1", 3600, false), (1, "b", "2", 0, true), (2, "c", "3", 0, false)]
        (NewCache 2 true) w0).1 ∧
      (applySets [(0, "a", "1", 3600, false), (1, "b", "2", 0, true), (2, "c", "3", 0, false)]
        (NewCache 2 true) w0).1.items.length ≤ 2) :=
  ⟨by decide, by decide, by decide,
    spec_C1.1 0 "k" "v" 0 false (NewCache 2 true) w0 (by decide) (by decide),
    spec_C1.2.2.2 2 true [(0, "a", "1", 3600, false), (1, "b", "2", 0, true), (2, "c", "3", 0, false)]
      w0 (by decide)⟩

/-- C2: the claim says one sweep removes every expired entry; the code does
not.  At time 10 both entries of `cTwoExpired` are expired
(`expiresAt = 5 ≠ 0` and `5 < 10`), yet one call to `cleanExpiredItems`
removes only the back-most one, `"y"`, and leaves the expired `"x"` in both
the map and the list: Go's `(*List).Remove` nils the loop element's links,
so the loop's `e = e.Prev()` yields nil and the sweep stops after its first
removal.  This contradicts the function's own documentation ("removes any
expired items"). -/
theorem spec_C2 :
    Cache.cleanExpiredItems 10 cTwoExpired = some cAfterSweep ∧
    mapGet cAfterSweep.items "x" = some ⟨"1", 5⟩ ∧
    cAfterSweep.lru = ["x"] ∧
    (5 : Nat) ≠ 0 ∧ (5 : Nat) < 10 := by decide

/-- C3 (counterexample): a replayed line is selected by the string prefix
test `HasPrefix(line, "SET")`, not by its first token being `SET`.  The
line `"SETT x y"` has first token `"SETT"`, so under the claim it must be
skipped; the code applies it, storing `x ↦ y`.  Dually `" SET p q"` (first
token `SET` after leading whitespace) is skipped by the code. -/
theorem spec_C3_counterexample :
    (goFields "SETT x y").getD 0 "" = "SETT" ∧
    mapGet (replayAOF 0 ["SETT x y"] (NewCache 5 true) w0).1.items "x" = some ⟨"y", 3600⟩ ∧
    (goFields " SET p q").getD 0 "" = "SET" ∧
    mapGet (replayAOF 0 [" SET p q"] (NewCache 5 true) w0).1.items "p" = none := by decide

/-- C3 (amended): replay reads the log line by line and applies, in file
order, exactly those lines that begin with the string prefix `SET` and
consist of exactly three whitespace-separated tokens; each is applied via
`Set(second token, third token)` with a fixed 1-hour TTL and
`isReplay = true`, and every other line is skipped without aborting the
replay. -/
theorem spec_C3 :
    ∀ (now : Nat) (lines : List String) (c : Cache) (w : World),
      replayAOF now lines c w =
        (lines.filter replayAccepts).foldl
          (fun cw line =>
            Cache.Set now ((goFields line).getD 1 "") ((goFields line).getD 2 "") hour true
              cw.1 cw.2)
          (c, w) :=
  fun now => replayAOF_filter now

/-- C4 (counterexample): the claim says a failed log append inside a
non-replay `Set` is reported to the caller of `Set`.  In the code `Set`
returns nothing and only `log.Println`s the error, so nothing reaches any
caller: with a failing AOF file the returned in-memory cache is identical
to the one returned on a successful append, and the command handler — the
caller the spec says the error is propagated to — still answers `OK\n`.
The only trace of the failure is the server-log line printed inside `Set`
itself. -/
theorem spec_C4_counterexample :
    (Cache.Set 0 "a" "1" hour false (NewCache 5 true) wFail).1 =
      (Cache.Set 0 "a" "1" hour false (NewCache 5 true) w0).1 ∧
    (handleLine 0 "SET a 1" (NewCache 5 true) wFail).1 = "OK\n" ∧
    (handleLine 0 "SET a 1" (NewCache 5 true) w0).1 = "OK\n" ∧
    (Cache.Set 0 "a" "1" hour false (NewCache 5 true) wFail).2.serverLog =
      ["Failed to append to AOF file: write error"] ∧
    (Cache.Set 0 "a" "1" hour false (NewCache 5 true) wFail).2.aof = [] := by decide

/-- C4 (amended): when the log append performed inside a non-replay `Set`
fails, the failure is logged inside `Set` (a `log.Println` line) rather
than returned to its caller — `Set` has no error result — and the
already-applied in-memory mutation is not rolled back: the key is present
with the new value and expiration, nothing was appended to the log, and the
cache returned is the same as if the append had succeeded. -/
theorem spec_C4 :
    ∀ (now : Nat) (k v : String) (ttl : Nat) (c : Cache) (w : World),
      wf c → c.items.length ≤ c.maxSize → 0 < c.maxSize →
      c.persist = true → w.appendFails = true →
      mapGet (Cache.Set now k v ttl false c w).1.items k =
        some ⟨v, if ttl ≠ 0 then now + ttl else 0⟩ ∧
      (Cache.Set now k v ttl false c w).2.aof = w.aof ∧
      (Cache.Set now k v ttl false c w).2.serverLog =
        w.serverLog ++ ["Failed to append to AOF file: write error"] ∧
      (Cache.Set now k v ttl false c w).1 =
        (Cache.Set now k v ttl false c { w with appendFails := false }).1 := by
  intro now k v ttl c w h hle hpos hc hw
  have hle1 : c.lru.length ≤ c.maxSize := by
    rw [← wf_length h]
    exact hle
  refine ⟨mapGet_Set_self now k v ttl false c w h hle1 hpos, ?_, ?_,
    Set_cache_world_irrel now k v ttl false c w _⟩
  · rw [Set_world_fail now k v ttl c w hc hw]
  · rw [Set_world_fail now k v ttl c w hc hw]

theorem spec_C4_witness :
    wf (NewCache 5 true) ∧ (NewCache 5 true).items.length ≤ (NewCache 5 true).maxSize ∧
    0 < (NewCache 5 true).maxSize ∧ (NewCache 5 true).persist = true ∧
    wFail.appendFails = true ∧
    (mapGet (Cache.Set 0 "a" "1" hour false (NewCache 5 true) wFail).1.items "a" =
        some ⟨"1", if hour ≠ 0 then 0 + hour else 0⟩ ∧
      (Cache.Set 0 "a" "1" hour false (NewCache 5 true) wFail).2.aof = wFail.aof ∧
      (Cache.Set 0 "a" "1" hour false (NewCache 5 true) wFail).2.serverLog =
        wFail.serverLog ++ ["Failed to append to AOF file: write error"] ∧
      (Cache.Set 0 "a" "1" hour false (NewCache 5 true) wFail).1 =
        (Cache.Set 0 "a" "1" hour false (NewCache 5 true)
          { wFail with appendFails := false }).1) :=
  ⟨by decide, by decide, by decide, by decide, by decide,
    spec_C4 0 "a" "1" hour (NewCache 5 true) wFail (by decide) (by decide) (by decide)
      (by decide) (by decide)⟩

/-- C5: on an empty cache with `maxSize = 2`, the sequence `Set(a,1)`,
`Set(b,2)`, `Get(a)`, `Set(c,3)` (1-hour TTLs, nothing expiring at time 0)
evicts exactly `b`: the intermediate `Get(a)` returns `("1", true)`, and
afterwards `Get(a) = ("1", true)`, `Get(b) = ("", false)`,
`Get(c) = ("3", true)`, with the recency list `[c, a]`. -/
theorem spec_C5 :
    c5g.1 = ("1", true) ∧
    (Cache.Get 0 "a" c5s3).1 = ("1", true) ∧
    (Cache.Get 0 "b" (Cache.Get 0 "a" c5s3).2).1 = ("", false) ∧
    (Cache.Get 0 "c" (Cache.Get 0 "b" (Cache.Get 0 "a" c5s3).2).2).1 = ("3", true) ∧
    mapGet c5s3.items "b" = none ∧
    c5s3.lru = ["c", "a"] := by decide

/-- C6 (counterexample): the claim says `RemoveExpired` terminates with
`size(map) ≤ maxSize` for every starting cache state.  `cBig` is a
wellformed cache holding three unexpired entries with `maxSize = 1`; one
call to `cleanExpiredItems` evicts only a single entry (the eviction step
is an `if`, not a loop), leaving two entries — still above capacity. -/
theorem spec_C6_counterexample :
    Cache.cleanExpiredItems 0 cBig = some cBigAfter ∧
    wf cBig ∧
    cBig.maxSize < cBigAfter.items.length := by decide

/-- C6 (amended): after the expiry-cleanup phase, if the size still exceeds
`maxSize`, exactly one entry is evicted from the least-recently-used end;
consequently `RemoveExpired` terminates with `size(map) ≤ maxSize` for
every wellformed starting state that is at most one entry over capacity. -/
theorem spec_C6 :
    ∀ (now : Nat) (c : Cache), wf c → c.items.length ≤ c.maxSize + 1 →
      ∃ c', Cache.cleanExpiredItems now c = some c' ∧ c'.items.length ≤ c.maxSize := by
  intro now c h hle
  obtain ⟨c', hc', hwf, hsize, hmax⟩ := clean_spec h
  refine ⟨c', hc', ?_⟩
  rw [wf_length hwf]
  refine hsize ?_
  rw [← wf_length h]
  exact hle

theorem spec_C6_witness :
    wf cW6 ∧ cW6.items.length ≤ cW6.maxSize + 1 ∧
    (∃ c', Cache.cleanExpiredItems 0 cW6 = some c' ∧ c'.items.length ≤ cW6.maxSize) :=
  ⟨by decide, by decide, spec_C6 0 cW6 (by decide) (by decide)⟩

/-- C7 (counterexample): the claim says the response is determined by
whitespace-separated tokenization of the trimmed line.  The handler
actually splits on single space characters (`strings.Split(msg, " ")`).
For the line `"FOO\tx"` the whitespace tokenization is `["FOO", "x"]` —
two tokens with an unrecognized first token, so the claim prescribes
`Unknown Command\n` — but the code sees one space-separated token and
answers `Invalid command\n`. -/
theorem spec_C7_counterexample :
    goFields (goTrimSpace "FOO\tx") = ["FOO", "x"] ∧
    goToUpper "FOO" ≠ "SET" ∧ goToUpper "FOO" ≠ "GET" ∧
    (handleLine 0 "FOO\tx" (NewCache 5 true) w0).1 = "Invalid command\n" ∧
    "Invalid command\n" ≠ "Unknown Command\n" := by decide

/-- C7 (amended): for every received line, the response is determined by
splitting the trimmed line on single space characters (consecutive spaces
produce empty tokens, tabs are not separators): fewer than 2 tokens yields
`Invalid command\n`; a first token equal (case-insensitively) to `SET` with
fewer than 3 tokens yields `Usage: SET key value\n`; a well-formed `SET`
applies a fixed 1-hour TTL with `isReplay = false` and yields `OK\n`; and
any other first token that is not `GET` yields `Unknown Command\n` — in
each case with the stated effect on the cache and the log. -/
theorem spec_C7 :
    ∀ (now : Nat) (msg : String) (c : Cache) (w : World),
      ((goSplit (goTrimSpace msg)).length < 2 →
        handleLine now msg c w = ("Invalid command\n", c, w)) ∧
      (2 ≤ (goSplit (goTrimSpace msg)).length →
        goToUpper ((goSplit (goTrimSpace msg)).getD 0 "") = "SET" →
        (goSplit (goTrimSpace msg)).length < 3 →
        handleLine now msg c w = ("Usage: SET key value\n", c, w)) ∧
      (goToUpper ((goSplit (goTrimSpace msg)).getD 0 "") = "SET" →
        3 ≤ (goSplit (goTrimSpace msg)).length →
        handleLine now msg c w = ("OK\n",
          (Cache.Set now ((goSplit (goTrimSpace msg)).getD 1 "")
            ((goSplit (goTrimSpace msg)).getD 2 "") hour false c w).1,
          (Cache.Set now ((goSplit (goTrimSpace msg)).getD 1 "")
            ((goSplit (goTrimSpace msg)).getD 2 "") hour false c w).2)) ∧
      (2 ≤ (goSplit (goTrimSpace msg)).length →
        goToUpper ((goSplit (goTrimSpace msg)).getD 0 "") ≠ "SET" →
        goToUpper ((goSplit (goTrimSpace msg)).getD 0 "") ≠ "GET" →
        handleLine now msg c w = ("Unknown Command\n", c, w)) := by
  intro now msg c w
  refine ⟨?_, ?_, ?_, ?_⟩
  · intro h2
    unfold handleLine
    rw [if_pos h2]
  · intro h2 hset h3
    unfold handleLine
    rw [if_neg (by omega), if_pos hset, if_pos h3]
  · intro hset h3
    unfold handleLine
    rw [if_neg (by omega), if_pos hset, if_neg (by omega)]
  · intro h2 hset hget
    unfold handleLine
    rw [if_neg (by omega), if_neg hset, if_neg hget]

theorem spec_C7_witness :
    goToUpper ((goSplit (goTrimSpace "set x y")).getD 0 "") = "SET" ∧
    3 ≤ (goSplit (goTrimSpace "set x y")).length ∧
    handleLine 0 "set x y" (NewCache 5 true) w0 = ("OK\n",
      (Cache.Set 0 ((goSplit (goTrimSpace "set x y")).getD 1 "")
        ((goSplit (goTrimSpace "set x y")).getD 2 "") hour false (NewCache 5 true) w0).1,
      (Cache.Set 0 ((goSplit (goTrimSpace "set x y")).getD 1 "")
        ((goSplit (goTrimSpace "set x y")).getD 2 "") hour false (NewCache 5 true) w0).2) :=
  ⟨by decide, by decide,
    (spec_C7 0 "set x y" (NewCache 5 true) w0).2.2.1 (by decide) (by decide)⟩

/-- C8: the persistence log is written only by well-formed `SET` lines
processed by the handler with `isReplay = false`: any handled line whose
first token does not uppercase to `SET` (in particular every `GET`) leaves
the world — log included — untouched; `Set` with `isReplay = true` leaves
the world unchanged for every cache and key; and hence replaying any log
never changes (in particular never grows) the log. -/
theorem spec_C8 :
    (∀ (now : Nat) (msg : String) (c : Cache) (w : World),
      goToUpper ((goSplit (goTrimSpace msg)).getD 0 "") ≠ "SET" →
      (handleLine now msg c w).2.2 = w) ∧
    (∀ (now : Nat) (k v : String) (ttl : Nat) (c : Cache) (w : World),
      (Cache.Set now k v ttl true c w).2 = w) ∧
    (∀ (now : Nat) (lines : List String) (c : Cache) (w : World),
      (replayAOF now lines c w).2 = w) :=
  ⟨handleLine_world_of_ne, Set_world_replay,
    fun now lines c w => replayAOF_world now lines c w⟩

theorem spec_C8_witness :
    goToUpper ((goSplit (goTrimSpace "GET a")).getD 0 "") ≠ "SET" ∧
    (handleLine 0 "GET a" (NewCache 5 true) w0).2.2 = w0 :=
  ⟨by decide, spec_C8.1 0 "GET a" (NewCache 5 true) w0 (by decide)⟩

/-- C9: for every received command line, tokens beyond those the
command's form requires are ignored rather than rejected: whenever the
first token uppercases to `SET` and there are at least three tokens, the
handler stores exactly the second and third tokens (ignoring all others)
and replies `OK\n`; whenever the first token uppercases to `GET` and
there are at least two tokens, the handler performs exactly the lookup of
the second token (ignoring all others).  Concretely, `SET k hello world`
silently truncates the intended value at its first space, storing
`hello`, and `GET a trailing stuff` looks up `a`. -/
theorem spec_C9 :
    (∀ (now : Nat) (msg : String) (c : Cache) (w : World),
      goToUpper ((goSplit (goTrimSpace msg)).getD 0 "") = "SET" →
      3 ≤ (goSplit (goTrimSpace msg)).length →
      handleLine now msg c w = ("OK\n",
        (Cache.Set now ((goSplit (goTrimSpace msg)).getD 1 "")
          ((goSplit (goTrimSpace msg)).getD 2 "") hour false c w).1,
        (Cache.Set now ((goSplit (goTrimSpace msg)).getD 1 "")
          ((goSplit (goTrimSpace msg)).getD 2 "") hour false c w).2)) ∧
    (∀ (now : Nat) (msg : String) (c : Cache) (w : World),
      goToUpper ((goSplit (goTrimSpace msg)).getD 0 "") = "GET" →
      2 ≤ (goSplit (goTrimSpace msg)).length →
      handleLine now msg c w =
        (if (Cache.Get now ((goSplit (goTrimSpace msg)).getD 1 "") c).1.2 then
          ((Cache.Get now ((goSplit (goTrimSpace msg)).getD 1 "") c).1.1 ++ "\n",
            (Cache.Get now ((goSplit (goTrimSpace msg)).getD 1 "") c).2, w)
        else ("nil\n", (Cache.Get now ((goSplit (goTrimSpace msg)).getD 1 "") c).2, w))) ∧
    ((handleLine 0 "SET k hello world" (NewCache 5 true) w0).1 = "OK\n" ∧
      (Cache.Get 0 "k" (handleLine 0 "SET k hello world" (NewCache 5 true) w0).2.1).1 =
        ("hello", true) ∧
      (handleLine 0 "GET a trailing stuff"
        (handleLine 0 "SET a 1 extra junk" (NewCache 5 true) w0).2.1 w0).1 = "1\n") := by
  refine ⟨?_, ?_, by decide⟩
  · intro now msg c w hset h3
    unfold handleLine
    rw [if_neg (by omega), if_pos hset, if_neg (by omega)]
  · intro now msg c w hget h2
    unfold handleLine
    rw [if_neg (by omega), if_neg (by rw [hget]; decide), if_pos hget]

theorem spec_C9_witness :
    goToUpper ((goSplit (goTrimSpace "SET a 1 extra junk")).getD 0 "") = "SET" ∧
    3 ≤ (goSplit (goTrimSpace "SET a 1 extra junk")).length ∧
    handleLine 0 "SET a 1 extra junk" (NewCache 5 true) w0 = ("OK\n",
      (Cache.Set 0 ((goSplit (goTrimSpace "SET a 1 extra junk")).getD 1 "")
        ((goSplit (goTrimSpace "SET a 1 extra junk")).getD 2 "") hour false
        (NewCache 5 true) w0).1,
      (Cache.Set 0 ((goSplit (goTrimSpace "SET a 1 extra junk")).getD 1 "")
        ((goSplit (goTrimSpace "SET a 1 extra junk")).getD 2 "") hour false
        (NewCache 5 true) w0).2) ∧
    goToUpper ((goSplit (goTrimSpace "GET a trailing stuff")).getD 0 "") = "GET" ∧
    2 ≤ (goSplit (goTrimSpace "GET a trailing stuff")).length ∧
    handleLine 0 "GET a trailing stuff" (NewCache 5 true) w0 =
      (if (Cache.Get 0 ((goSplit (goTrimSpace "GET a trailing stuff")).getD 1 "")
          (NewCache 5 true)).1.2 then
        ((Cache.Get 0 ((goSplit (goTrimSpace "GET a trailing stuff")).getD 1 "")
            (NewCache 5 true)).1.1 ++ "\n",
          (Cache.Get 0 ((goSplit (goTrimSpace "GET a trailing stuff")).getD 1 "")
            (NewCache 5 true)).2, w0)
      else ("nil\n",
        (Cache.Get 0 ((goSplit (goTrimSpace "GET a trailing stuff")).getD 1 "")
          (NewCache 5 true)).2, w0)) :=
  ⟨by decide, by decide,
    spec_C9.1 0 "SET a 1 extra junk" (NewCache 5 true) w0 (by decide) (by decide),
    by decide, by decide,
    spec_C9.2.1 0 "GET a trailing stuff" (NewCache 5 true) w0 (by decide) (by decide)⟩

/-- C10: `Set` performs no validation of its key: for every value, TTL and
replay flag, `Set("", value, ttl, isReplay)` on an empty cache stores an
entry under the empty-string key exactly like any other key, and a
subsequent `Get("")` before expiry returns `(value, true)`. -/
theorem spec_C10 :
    ∀ (value : String) (ttl : Nat) (r : Bool),
      mapGet (Cache.Set 0 "" value ttl r (NewCache 5 false) w0).1.items "" =
        some ⟨value, if ttl ≠ 0 then 0 + ttl else 0⟩ ∧
      (Cache.Get 0 "" (Cache.Set 0 "" value ttl r (NewCache 5 false) w0).1).1 =
        (value, true) := by
  intro value ttl r
  have hpres := mapGet_Set_self 0 "" value ttl r (NewCache 5 false) w0
    (wf_NewCache 5 false) (by decide) (by decide)
  refine ⟨hpres, ?_⟩
  apply Get_found_of_mapGet hpres
  rintro ⟨h1, h2⟩
  exact Nat.not_lt_zero _ h2
